import Mathlib

/-!
# evs-input: framing reader, transfer loop and lifecycle

A shallow embedding of `input.go`.  A TCP connection is a finite list of
bytes together with the error the transport reports once the bytes are
exhausted.  `Stream` is the per-connection handler; its observable actions
(log lines, buffer allocations, counter increments, channel sends and the
deferred close) are recorded in order in a trace.
-/

namespace EvsInput

/-- One octet. -/
abbrev Byte := Fin 256

/-- Errors surfaced by `io.ReadFull`: `io.EOF`, `io.ErrUnexpectedEOF`, or any
other transport error (identified by a code). -/
inductive IOError where
  | EOF
  | ErrUnexpectedEOF
  | other (code : Nat)
  deriving DecidableEq, Repr

/-- The connection as seen through the buffered reader `r`: the bytes still to
be delivered and the error returned once they run out (`EOF` for a clean
close by the peer). -/
structure Conn where
  data : List Byte
  term : IOError
  deriving DecidableEq, Repr

/-- Result of `io.ReadFull(r, buf)`: the count `n`, the error, the bytes copied
into `buf[:n]`, and the bytes left in the reader. -/
structure ReadResult where
  n : Nat
  err : Option IOError
  buf : List Byte
  rest : List Byte
  deriving DecidableEq, Repr

/-- The function `io.ReadFull(r, buf)` with `len(buf) = len`: reads exactly `len` bytes if
they are available (`err = nil`); otherwise reads what is there and reports
the terminal error, an `EOF` after a partial read becoming
`ErrUnexpectedEOF`. -/
def ReadFull (term : IOError) (r : List Byte) (len : Nat) : ReadResult :=
  if len ≤ r.length then
    { n := len, err := none, buf := r.take len, rest := r.drop len }
  else if r.length = 0 then
    { n := 0, err := some term, buf := [], rest := [] }
  else
    { n := r.length,
      err := some (if term = IOError.EOF then IOError.ErrUnexpectedEOF else term),
      buf := r, rest := [] }

/-- The function `binary.BigEndian.Uint32(b)`, widened to `uint64`. -/
def Uint32 (b : List Byte) : Nat :=
  (b.getD 3 0).val + (b.getD 2 0).val * 2 ^ 8 + (b.getD 1 0).val * 2 ^ 16
    + (b.getD 0 0).val * 2 ^ 24

/-- Constant `maxlen := uint64(128 * 1024 * 1024)`. -/
def maxlen : Nat := 128 * 1024 * 1024

/-- Messages passed to `log.Print`. -/
inductive LogMsg where
  | err (e : IOError)
  | text (s : String)
  deriving DecidableEq, Repr

/-- Observable actions of `Stream`, in program order. -/
inductive Effect where
  | log (m : LogMsg)
  | alloc (len : Nat)
  | inc
  | send (buf : List Byte)
  | close
  deriving DecidableEq, Repr

/-- State of the `for` loop of `Stream`: the reader and the trace so far. -/
structure StreamState where
  r : List Byte
  trace : List Effect
  deriving DecidableEq, Repr

/-- The `for { ... }` loop of `Stream`.  Each `break` returns the state at that
point; `none` only when the iteration budget `fuel` is used up. -/
def streamLoop (term : IOError) : Nat → StreamState → Option StreamState
  | 0, _ => none
  | fuel + 1, s =>
    let h := ReadFull term s.r 4
    match h.err with
    | some e =>
      if e ≠ IOError.EOF then
        some { r := h.rest, trace := s.trace ++ [Effect.log (LogMsg.err e)] }
      else
        some { r := h.rest, trace := s.trace }
    | none =>
      if h.n ≠ 4 then
        some { r := h.rest, trace := s.trace ++ [Effect.log (LogMsg.text "Truncation?!")] }
      else
        let l := Uint32 h.buf
        if l = 0 then
          some { r := h.rest, trace := s.trace ++ [Effect.log (LogMsg.text "len == 0?!")] }
        else if l > maxlen then
          some { r := h.rest, trace := s.trace ++ [Effect.log (LogMsg.text "PDU too long")] }
        else
          let tr := s.trace ++ [Effect.alloc l]
          let p := ReadFull term h.rest l
          match p.err with
          | some e =>
            if e ≠ IOError.EOF then
              some { r := p.rest,
                     trace := tr ++ [Effect.log (LogMsg.err e), Effect.log (LogMsg.err e)] }
            else
              some { r := p.rest, trace := tr ++ [Effect.log (LogMsg.err e)] }
          | none =>
            if p.n ≠ l then
              some { r := p.rest, trace := tr ++ [Effect.log (LogMsg.text "Truncation?!")] }
            else
              streamLoop term fuel
                { r := p.rest, trace := tr ++ [Effect.inc, Effect.send p.buf] }

/-- The handler `Input.Stream(conn)`: run the loop on the connection, then the deferred
`conn.Close()`.  The budget `len(data) + 1` always suffices
(`Stream_spec`). -/
def Stream (conn : Conn) : Option StreamState :=
  match streamLoop conn.term (conn.data.length + 1) { r := conn.data, trace := [] } with
  | none => none
  | some s => some { r := s.r, trace := s.trace ++ [Effect.close] }

/-- Payloads sent on the channel, in order. -/
def enqueued : List Effect → List (List Byte)
  | [] => []
  | Effect.send b :: t => b :: enqueued t
  | _ :: t => enqueued t

/-- Number of `received.Inc()` calls. -/
def incCount : List Effect → Nat
  | [] => 0
  | Effect.inc :: t => incCount t + 1
  | _ :: t => incCount t

/-- Buffer sizes passed to `make([]byte, l)`, in order. -/
def allocs : List Effect → List Nat
  | [] => []
  | Effect.alloc n :: t => n :: allocs t
  | _ :: t => allocs t

/-- The 4-byte unsigned big-endian encoding of `n` (wire format of the length
prefix). -/
def be32 (n : Nat) : List Byte :=
  [Fin.ofNat (n / 2 ^ 24), Fin.ofNat (n / 2 ^ 16), Fin.ofNat (n / 2 ^ 8), Fin.ofNat n]

/-- One frame on the wire: length prefix followed by the payload. -/
def encodeFrame (p : List Byte) : List Byte := be32 p.length ++ p

/-- A sequence of frames on the wire. -/
def encodeFrames : List (List Byte) → List Byte
  | [] => []
  | p :: ps => encodeFrame p ++ encodeFrames ps

/-- Trace of a run of successfully received frames. -/
def frameEffects : List (List Byte) → List Effect
  | [] => []
  | p :: ps => Effect.alloc p.length :: Effect.inc :: Effect.send p :: frameEffects ps

/-! ## The transfer loop -/

/-- The fields of `pb.Event` this program reads (`Device`, `Network`, `Time`);
everything else in the message is kept as an uninterpreted body. -/
structure Event where
  Device : String
  Network : String
  Time : Option Int
  body : List Byte
  deriving DecidableEq, Repr

/-- The external collaborators of `Xfer` and `recordLatency`:
`proto.Unmarshal` into a fresh `pb.Event`, and `ptypes.Timestamp` (whose
error is discarded by the caller), in nanoseconds. -/
structure Env where
  Unmarshal : List Byte → Except String Event
  Timestamp : Option Int → Int

/-- The `props` map built by `Xfer`. -/
def props (ev : Event) : List (String × String) :=
  [("device", ev.Device), ("network", ev.Network)]

/-- Observable actions of `Xfer`, in program order. -/
inductive XferEffect where
  | log (e : String)
  | goRecordLatency (ts : Int) (ev : Event)
  | Output (ev : Event) (props : List (String × String))
  deriving DecidableEq, Repr

/-- Body of the `for buf := range i.ch` loop for one dequeued `buf`, with `ts`
the value of `time.Now()`. -/
def XferBody (env : Env) (ts : Int) (buf : List Byte) : List XferEffect :=
  match env.Unmarshal buf with
  | Except.error e => [XferEffect.log e]
  | Except.ok ev => [XferEffect.goRecordLatency ts ev, XferEffect.Output ev (props ev)]

/-- The worker `Input.Xfer` on the sequence of payloads the channel delivers; `now k` is
the clock reading in iteration `k`. -/
def Xfer (env : Env) (now : Nat → Int) :
    List (List Byte) → Nat → List XferEffect → List XferEffect
  | [], _, tr => tr
  | buf :: rest, k, tr => Xfer env now rest (k + 1) (tr ++ XferBody env (now k) buf)

/-- Events handed to `Output`, in order. -/
def published : List XferEffect → List (Event × List (String × String))
  | [] => []
  | XferEffect.Output ev ps :: t => (ev, ps) :: published t
  | _ :: t => published t

/-- Successful result of a decode, if any. -/
def decoded (env : Env) (buf : List Byte) : Option Event :=
  match env.Unmarshal buf with
  | Except.error _ => none
  | Except.ok ev => some ev

/-! ## The `Input` object and its lifecycle -/

/-- A buffered channel of byte slices: capacity and current contents. -/
structure Chan where
  cap : Nat
  buf : List (List Byte)
  deriving DecidableEq, Repr

/-- Type `InputConfig`: the listening port. -/
structure InputConfig where
  Port : Nat
  deriving DecidableEq, Repr

/-- Type `Input`.  The summary metric is represented by its observations (the
values passed to `Observe`), the counter by its value, and the embedded event
producer by what has been handed to `Output`. -/
structure Input where
  config : InputConfig
  running : Bool
  ch : Chan
  event_latency : List Int
  received : Nat
  outputs : List (Event × List (String × String))
  deriving DecidableEq, Repr

/-- Constructor `NewInput(ic)`. -/
def NewInput (ic : InputConfig) : Input :=
  { config := ic, running := true, ch := { cap := 1000, buf := [] },
    event_latency := [], received := 0, outputs := [] }

/-- Method `Input.Stop`. -/
def Input.Stop (i : Input) : Input := { i with running := false }

/-- One action of a `Stream` handler on the shared object; `none` when the
action is a send on a full channel, which blocks. -/
def Input.effect (i : Input) : Effect → Option Input
  | Effect.inc => some { i with received := i.received + 1 }
  | Effect.send b =>
    if i.ch.buf.length < i.ch.cap then
      some { i with ch := { cap := i.ch.cap, buf := i.ch.buf ++ [b] } }
    else none
  | _ => some i

/-- Run a handler's actions in order until done or blocked. -/
def Input.effects (i : Input) : List Effect → Input
  | [] => i
  | e :: t =>
    match i.effect e with
    | none => i
    | some j => j.effects t

/-- A whole run of `i.Stream(conn)` with no other task interleaved. -/
def Input.Stream (i : Input) (conn : Conn) : Input :=
  match EvsInput.Stream conn with
  | none => i
  | some s => i.effects s.trace

/-- One action of `Xfer` on the shared object. -/
def Input.xferEffect (i : Input) : XferEffect → Input
  | XferEffect.Output ev ps => { i with outputs := i.outputs ++ [(ev, ps)] }
  | _ => i

/-- One iteration of the loop of `Xfer`: receive from the channel (nothing
happens while it is empty) and run the body. -/
def Input.XferIter (env : Env) (ts : Int) (i : Input) : Input :=
  match i.ch.buf with
  | [] => i
  | buf :: rest =>
    (XferBody env ts buf).foldl Input.xferEffect
      { i with ch := { cap := i.ch.cap, buf := rest } }

/-- Method `time.Time.Sub` on nanosecond readings: the difference, saturated to the range
of `time.Duration`. -/
def Sub (t u : Int) : Int :=
  max (-(2 ^ 63)) (min (2 ^ 63 - 1) (t - u))

/-- The conversion `float64(x)` of a 64-bit integer, given as the (integral)
value of the result: `x` itself below `2 ^ 53` in magnitude, otherwise `x`
rounded to 53 significant bits, ties to even. -/
def float64 (x : Int) : Int :=
  let n := x.natAbs
  if n < 2 ^ 53 then x
  else
    let e := Nat.log2 n - 52
    let q := n / 2 ^ e
    let r := n % 2 ^ e
    let q' := if 2 * r > 2 ^ e ∨ (2 * r = 2 ^ e ∧ q % 2 = 1) then q + 1 else q
    x.sign * ((q' * 2 ^ e : Nat) : Int)

/-- Method `Input.recordLatency(ts, ev)`. -/
def Input.recordLatency (env : Env) (i : Input) (ts : Int) (ev : Event) : Input :=
  let tm := env.Timestamp ev.Time
  let latency := Sub ts tm
  { i with event_latency := i.event_latency ++ [float64 latency] }

/-- One iteration of the accept loop of `Run`, given what `Accept` returned:
the connection handed to a new `Stream` task, if any.  Nothing is written. -/
def Input.RunIter (i : Input) (accepted : Option Conn) : Input × Option Conn :=
  if i.running then (i, accepted) else (i, none)

/-- The operations on an `Input`. -/
inductive Op where
  | Stop
  | Stream (conn : Conn)
  | streamEffect (e : Effect)
  | XferIter (ts : Int)
  | recordLatency (ts : Int) (ev : Event)
  | RunIter (accepted : Option Conn)
  deriving DecidableEq, Repr

/-- Effect of one operation on the object. -/
def Input.exec (env : Env) (i : Input) : Op → Input
  | Op.Stop => i.Stop
  | Op.Stream conn => i.Stream conn
  | Op.streamEffect e => (i.effect e).getD i
  | Op.XferIter ts => i.XferIter env ts
  | Op.recordLatency ts ev => i.recordLatency env ts ev
  | Op.RunIter accepted => (i.RunIter accepted).1

/-- Effect of a sequence of operations. -/
def Input.execAll (env : Env) (i : Input) (ops : List Op) : Input :=
  ops.foldl (Input.exec env) i

/-! ## The channel history -/

/-- The shared object together with the history of its channel: the payloads
whose send has completed and the payloads `Xfer` has received, each in
order.  The history is a record only; it is never read by an operation. -/
structure Sys where
  inp : Input
  sent : List (List Byte)
  recvd : List (List Byte)
  deriving DecidableEq, Repr

/-- The system right after `NewInput(ic)`. -/
def Sys.init (ic : InputConfig) : Sys :=
  { inp := NewInput ic, sent := [], recvd := [] }

/-- One action of a `Stream` handler, recording a completed send. -/
def Sys.effect (s : Sys) (e : Effect) : Option Sys :=
  match s.inp.effect e with
  | none => none
  | some j =>
    some { inp := j,
           sent := match e with
             | Effect.send b => s.sent ++ [b]
             | _ => s.sent,
           recvd := s.recvd }

/-- Run a handler's actions in order until done or blocked. -/
def Sys.effects (s : Sys) : List Effect → Sys
  | [] => s
  | e :: t =>
    match s.effect e with
    | none => s
    | some j => j.effects t

/-- Effect of one operation, recording what `Xfer` receives. -/
def Sys.exec (env : Env) (s : Sys) : Op → Sys
  | Op.Stop => { s with inp := s.inp.Stop }
  | Op.Stream conn =>
    match Stream conn with
    | none => s
    | some st => s.effects st.trace
  | Op.streamEffect e => (s.effect e).getD s
  | Op.XferIter ts =>
    { inp := s.inp.XferIter env ts,
      sent := s.sent,
      recvd := match s.inp.ch.buf with
        | [] => s.recvd
        | buf :: _ => s.recvd ++ [buf] }
  | Op.recordLatency ts ev => { s with inp := s.inp.recordLatency env ts ev }
  | Op.RunIter accepted => { s with inp := (s.inp.RunIter accepted).1 }

/-- Effect of a sequence of operations: any interleaving of the actions of
the `Stream` handlers, the iterations of `Xfer` and the other operations. -/
def Sys.execAll (env : Env) (s : Sys) (ops : List Op) : Sys :=
  ops.foldl (Sys.exec env) s

/-- The channel invariant: capacity 1000, at most that many queued payloads,
and every payload sent is either received already or still queued, in
order. -/
def Sys.Inv (s : Sys) : Prop :=
  s.inp.ch.cap = 1000 ∧ s.inp.ch.buf.length ≤ 1000 ∧ s.sent = s.recvd ++ s.inp.ch.buf

/-! ## Auxiliary definitions for the statements -/

/-- An effect other than a counter increment or a channel send. -/
def Effect.quiet : Effect → Bool
  | Effect.inc => false
  | Effect.send _ => false
  | _ => true

/-- Every payload of the list has a length in `(0, maxlen]`. -/
def ValidPayloads (ps : List (List Byte)) : Prop :=
  ∀ p ∈ ps, 0 < p.length ∧ p.length ≤ maxlen

/-- Effect of the deferred `conn.Close()` on the final state. -/
def closeConn (s : StreamState) : StreamState :=
  { r := s.r, trace := s.trace ++ [Effect.close] }

/-- Log lines written when the header read fails with `e`. -/
def headerErrLogs (e : IOError) : List Effect :=
  if e ≠ IOError.EOF then [Effect.log (LogMsg.err e)] else []

/-- Log lines written when the payload read fails with `e`. -/
def payloadErrLogs (e : IOError) : List Effect :=
  if e ≠ IOError.EOF then [Effect.log (LogMsg.err e), Effect.log (LogMsg.err e)]
  else [Effect.log (LogMsg.err e)]

/-- A decoder used to exercise the transfer loop: the empty payload is
malformed, any other payload decodes to an event carrying it. -/
def sampleEnv : Env :=
  { Unmarshal := fun b =>
      match b with
      | [] => Except.error "unexpected EOF"
      | _ :: _ => Except.ok { Device := "dev", Network := "net", Time := none, body := b },
    Timestamp := fun t => t.getD 0 }

/-! ## Basic facts -/

theorem be32_length (n : Nat) : (be32 n).length = 4 := rfl

theorem Uint32_be32 (n : Nat) (h : n < 2 ^ 32) : Uint32 (be32 n) = n := by
  simp [be32, Uint32, Fin.ofNat] at *
  omega

theorem be32_Uint32 (b : List Byte) (h : b.length = 4) : be32 (Uint32 b) = b := by
  match b, h with
  | [b0, b1, b2, b3], _ =>
    have h0 := b0.isLt
    have h1 := b1.isLt
    have h2 := b2.isLt
    have h3 := b3.isLt
    simp only [be32, Uint32, List.getD_cons_zero, List.getD_cons_succ, Fin.ofNat]
    refine congrArg₂ _ (Fin.ext ?_) (congrArg₂ _ (Fin.ext ?_) (congrArg₂ _ (Fin.ext ?_)
      (congrArg₂ _ (Fin.ext ?_) rfl)))
    all_goals simp only [Nat.reducePow]
    all_goals omega

theorem ReadFull_append (term : IOError) (a rest : List Byte) :
    ReadFull term (a ++ rest) a.length
      = { n := a.length, err := none, buf := a, rest := rest } := by
  simp [ReadFull]

theorem ReadFull_short (term : IOError) (r : List Byte) (len : Nat) (h : r.length < len) :
    ∃ e, (ReadFull term r len).err = some e ∧ (ReadFull term r len).rest = [] := by
  unfold ReadFull
  rw [if_neg (by omega)]
  split <;> simp

theorem ReadFull_ok (term : IOError) (r : List Byte) (len : Nat) (h : len ≤ r.length) :
    ReadFull term r len
      = { n := len, err := none, buf := r.take len, rest := r.drop len } := by
  simp [ReadFull, h]

theorem maxlen_lt : maxlen < 2 ^ 32 := by decide

theorem streamLoop_frame (term : IOError) (fuel : Nat) (p rest : List Byte)
    (tr : List Effect) (h0 : 0 < p.length) (h1 : p.length ≤ maxlen) :
    streamLoop term (fuel + 1) { r := encodeFrame p ++ rest, trace := tr }
      = streamLoop term fuel { r := rest, trace := tr ++ frameEffects [p] } := by
  have hh : ReadFull term (encodeFrame p ++ rest) 4
      = { n := 4, err := none, buf := be32 p.length, rest := p ++ rest } := by
    simpa [encodeFrame, List.append_assoc] using ReadFull_append term (be32 p.length) (p ++ rest)
  have hu : Uint32 (be32 p.length) = p.length :=
    Uint32_be32 _ (lt_of_le_of_lt h1 maxlen_lt)
  have hp := ReadFull_append term p rest
  rw [streamLoop]
  simp only [hh, hu, hp, frameEffects]
  rw [if_neg (by simp), if_neg (by omega), if_neg (by omega), if_neg (by simp)]
  simp [List.append_assoc]

/-- One iteration of the loop on an arbitrary reader: either it breaks, adding
only quiet effects, or the reader starts with a well-formed frame, which is
received and sent. -/
theorem streamLoop_step (term : IOError) (fuel : Nat) (s : StreamState) :
    (∃ rest tl, streamLoop term (fuel + 1) s = some { r := rest, trace := s.trace ++ tl }
        ∧ tl.all Effect.quiet = true ∧ rest.length ≤ s.r.length)
    ∨ (∃ q rest, s.r = encodeFrame q ++ rest ∧ 0 < q.length ∧ q.length ≤ maxlen
        ∧ streamLoop term (fuel + 1) s
            = streamLoop term fuel { r := rest, trace := s.trace ++ frameEffects [q] }) := by
  by_cases h4 : 4 ≤ s.r.length
  · by_cases hz : Uint32 (s.r.take 4) = 0
    · left
      refine ⟨s.r.drop 4, [Effect.log (LogMsg.text "len == 0?!")], ?_, rfl, by simp⟩
      rw [streamLoop]
      simp [ReadFull_ok term s.r 4 h4, hz]
    · by_cases hm : Uint32 (s.r.take 4) > maxlen
      · left
        refine ⟨s.r.drop 4, [Effect.log (LogMsg.text "PDU too long")], ?_, rfl, by simp⟩
        rw [streamLoop]
        simp [ReadFull_ok term s.r 4 h4, hz, hm]
      · by_cases hl : Uint32 (s.r.take 4) ≤ (s.r.drop 4).length
        · right
          refine ⟨(s.r.drop 4).take (Uint32 (s.r.take 4)),
            (s.r.drop 4).drop (Uint32 (s.r.take 4)), ?_, ?_, ?_, ?_⟩
          · have hlen : ((s.r.drop 4).take (Uint32 (s.r.take 4))).length
                = Uint32 (s.r.take 4) := by
              simpa using hl
            have h4' : (s.r.take 4).length = 4 := by simpa using h4
            rw [encodeFrame, hlen, be32_Uint32 _ h4', List.append_assoc,
              List.take_append_drop, List.take_append_drop]
          · simp only [List.length_take]
            omega
          · simp only [List.length_take]
            omega
          · rw [streamLoop]
            simp only [ReadFull_ok term s.r 4 h4, ReadFull_ok term (s.r.drop 4) _ hl,
              frameEffects]
            rw [if_neg (by simp), if_neg hz, if_neg hm, if_neg (by simp)]
            have hlen : ((s.r.drop 4).take (Uint32 (s.r.take 4))).length
                = Uint32 (s.r.take 4) := by
              simpa using hl
            simp [List.append_assoc, hlen]
        · left
          obtain ⟨e, he, hr⟩ := ReadFull_short term (s.r.drop 4) (Uint32 (s.r.take 4))
            (by omega)
          by_cases hE : e = IOError.EOF
          · refine ⟨[], [Effect.alloc (Uint32 (s.r.take 4)), Effect.log (LogMsg.err e)],
              ?_, rfl, by simp⟩
            rw [streamLoop]
            simp only [ReadFull_ok term s.r 4 h4]
            rw [if_neg (by simp), if_neg hz, if_neg hm]
            simp [he, hr, hE]
          · refine ⟨[], [Effect.alloc (Uint32 (s.r.take 4)), Effect.log (LogMsg.err e),
              Effect.log (LogMsg.err e)], ?_, rfl, by simp⟩
            rw [streamLoop]
            simp only [ReadFull_ok term s.r 4 h4]
            rw [if_neg (by simp), if_neg hz, if_neg hm]
            simp [he, hr, hE]
  · left
    obtain ⟨e, he, hr⟩ := ReadFull_short term s.r 4 (by omega)
    by_cases hE : e = IOError.EOF
    · refine ⟨[], [], ?_, rfl, by simp⟩
      rw [streamLoop]
      simp [he, hr, hE]
    · refine ⟨[], [Effect.log (LogMsg.err e)], ?_, rfl, by simp⟩
      rw [streamLoop]
      simp [he, hr, hE]

theorem frameEffects_append (ps qs : List (List Byte)) :
    frameEffects (ps ++ qs) = frameEffects ps ++ frameEffects qs := by
  induction ps with
  | nil => rfl
  | cons p ps ih => simp [frameEffects, ih]

theorem encodeFrames_append (ps qs : List (List Byte)) :
    encodeFrames (ps ++ qs) = encodeFrames ps ++ encodeFrames qs := by
  induction ps with
  | nil => rfl
  | cons p ps ih => simp [encodeFrames, ih]

theorem encodeFrames_length_ge (ps : List (List Byte)) :
    ps.length ≤ (encodeFrames ps).length := by
  induction ps with
  | nil => simp
  | cons p ps ih =>
    simp only [encodeFrames, encodeFrame, List.length_append, be32_length, List.length_cons]
    omega

theorem streamLoop_frames (term : IOError) (fuel : Nat) (rest : List Byte) :
    ∀ (ps : List (List Byte)) (tr : List Effect), ValidPayloads ps →
      streamLoop term (fuel + ps.length) { r := encodeFrames ps ++ rest, trace := tr }
        = streamLoop term fuel { r := rest, trace := tr ++ frameEffects ps } := by
  intro ps
  induction ps with
  | nil => intro tr _; simp [encodeFrames, frameEffects]
  | cons p ps ih =>
    intro tr hv
    have hp := hv p (List.mem_cons_self _ _)
    have hv' : ValidPayloads ps := fun q hq => hv q (List.mem_cons_of_mem _ hq)
    rw [List.length_cons, ← Nat.add_assoc, encodeFrames, List.append_assoc,
      streamLoop_frame term _ p _ tr hp.1 hp.2, ih _ hv']
    simp [frameEffects, List.append_assoc]

theorem Stream_eq_map (conn : Conn) :
    Stream conn = (streamLoop conn.term (conn.data.length + 1)
      { r := conn.data, trace := [] }).map closeConn := by
  unfold Stream
  cases streamLoop conn.term (conn.data.length + 1) { r := conn.data, trace := [] } <;> rfl

/-- After a run of well-formed frames the handler is in the loop, with at least
one iteration left, on whatever follows them. -/
theorem Stream_frames (term : IOError) (ps : List (List Byte)) (rest : List Byte)
    (hv : ValidPayloads ps) :
    ∃ k, Stream { data := encodeFrames ps ++ rest, term := term }
      = (streamLoop term (k + 1) { r := rest, trace := frameEffects ps }).map closeConn := by
  refine ⟨(encodeFrames ps).length - ps.length + rest.length, ?_⟩
  rw [Stream_eq_map]
  have hle := encodeFrames_length_ge ps
  have hf : (encodeFrames ps ++ rest).length + 1
      = ((encodeFrames ps).length - ps.length + rest.length + 1) + ps.length := by
    simp only [List.length_append]
    omega
  simp only [hf]
  rw [streamLoop_frames term _ rest ps [] hv]
  simp

/-- Total correctness of the loop on an arbitrary reader: with more fuel than
bytes it returns, having received a run of well-formed frames that form a
prefix of the reader, followed by quiet effects only. -/
theorem streamLoop_spec (term : IOError) :
    ∀ (fuel : Nat) (s : StreamState), s.r.length < fuel →
      ∃ qs tl rest post, streamLoop term fuel s
          = some { r := rest, trace := s.trace ++ frameEffects qs ++ tl }
        ∧ tl.all Effect.quiet = true ∧ ValidPayloads qs
        ∧ s.r = encodeFrames qs ++ post := by
  intro fuel
  induction fuel with
  | zero => intro s h; omega
  | succ fuel ih =>
    intro s h
    rcases streamLoop_step term fuel s with ⟨rest, tl, he, hq, _⟩ | ⟨q, rest, hr, h0, h1, he⟩
    · exact ⟨[], tl, rest, s.r, by simpa [frameEffects] using he, hq,
        fun _ hp => absurd hp (List.not_mem_nil _), by simp [encodeFrames]⟩
    · have hlen : rest.length < fuel := by
        have := congrArg List.length hr
        simp only [encodeFrame, List.length_append, be32_length] at this
        omega
      obtain ⟨qs, tl, rest', post, he', hq, hv, hp⟩ :=
        ih { r := rest, trace := s.trace ++ frameEffects [q] } hlen
      refine ⟨q :: qs, tl, rest', post, ?_, hq, ?_, ?_⟩
      · rw [he, he']
        simp [frameEffects, List.append_assoc]
      · intro p hp'
        rcases List.mem_cons.mp hp' with rfl | hp'
        · exact ⟨h0, h1⟩
        · exact hv p hp'
      · simp only at hp
        rw [hr, hp, encodeFrames, List.append_assoc]

theorem Stream_spec (conn : Conn) :
    ∃ qs tl rest post, Stream conn
        = some { r := rest, trace := frameEffects qs ++ tl ++ [Effect.close] }
      ∧ tl.all Effect.quiet = true ∧ ValidPayloads qs
      ∧ conn.data = encodeFrames qs ++ post := by
  obtain ⟨qs, tl, rest, post, he, hq, hv, hp⟩ :=
    streamLoop_spec conn.term (conn.data.length + 1) { r := conn.data, trace := [] }
      (Nat.lt_succ_self _)
  refine ⟨qs, tl, rest, post, ?_, hq, hv, hp⟩
  rw [Stream_eq_map, he]
  simp [closeConn]

theorem enqueued_append (a b : List Effect) : enqueued (a ++ b) = enqueued a ++ enqueued b := by
  induction a with
  | nil => rfl
  | cons e a ih => cases e <;> simp [enqueued, ih]

theorem incCount_append (a b : List Effect) : incCount (a ++ b) = incCount a + incCount b := by
  induction a with
  | nil => simp [incCount]
  | cons e a ih => cases e <;> simp [incCount, ih, Nat.add_right_comm]

theorem allocs_append (a b : List Effect) : allocs (a ++ b) = allocs a ++ allocs b := by
  induction a with
  | nil => rfl
  | cons e a ih => cases e <;> simp [allocs, ih]

theorem enqueued_frameEffects (ps : List (List Byte)) : enqueued (frameEffects ps) = ps := by
  induction ps with
  | nil => rfl
  | cons p ps ih => simp [frameEffects, enqueued, ih]

theorem incCount_frameEffects (ps : List (List Byte)) :
    incCount (frameEffects ps) = ps.length := by
  induction ps with
  | nil => rfl
  | cons p ps ih => simp [frameEffects, incCount, ih]

theorem allocs_frameEffects (ps : List (List Byte)) :
    allocs (frameEffects ps) = ps.map List.length := by
  induction ps with
  | nil => rfl
  | cons p ps ih => simp [frameEffects, allocs, ih]

theorem enqueued_quiet (tl : List Effect) (h : tl.all Effect.quiet = true) :
    enqueued tl = [] := by
  induction tl with
  | nil => rfl
  | cons e tl ih =>
    simp only [List.all_cons, Bool.and_eq_true] at h
    cases e <;> simp_all [enqueued, Effect.quiet]

theorem incCount_quiet (tl : List Effect) (h : tl.all Effect.quiet = true) :
    incCount tl = 0 := by
  induction tl with
  | nil => rfl
  | cons e tl ih =>
    simp only [List.all_cons, Bool.and_eq_true] at h
    cases e <;> simp_all [incCount, Effect.quiet]

theorem ReadFull_header (term : IOError) (hdr tail : List Byte) (h : hdr.length = 4) :
    ReadFull term (hdr ++ tail) 4 = { n := 4, err := none, buf := hdr, rest := tail } := by
  have := ReadFull_append term hdr tail
  rwa [h] at this

theorem streamLoop_end (term : IOError) (k : Nat) (tr : List Effect) :
    streamLoop term (k + 1) { r := [], trace := tr }
      = some { r := [], trace := tr ++ headerErrLogs term } := by
  rw [streamLoop]
  by_cases h : term = IOError.EOF <;> simp [ReadFull, headerErrLogs, h]

theorem streamLoop_zero (term : IOError) (k : Nat) (hdr tail : List Byte) (tr : List Effect)
    (h4 : hdr.length = 4) (hz : Uint32 hdr = 0) :
    streamLoop term (k + 1) { r := hdr ++ tail, trace := tr }
      = some { r := tail, trace := tr ++ [Effect.log (LogMsg.text "len == 0?!")] } := by
  rw [streamLoop]
  simp [ReadFull_header term hdr tail h4, hz]

theorem streamLoop_oversize (term : IOError) (k : Nat) (hdr tail : List Byte)
    (tr : List Effect) (h4 : hdr.length = 4) (hm : Uint32 hdr > maxlen) :
    streamLoop term (k + 1) { r := hdr ++ tail, trace := tr }
      = some { r := tail, trace := tr ++ [Effect.log (LogMsg.text "PDU too long")] } := by
  have hz : Uint32 hdr ≠ 0 := by omega
  rw [streamLoop]
  simp [ReadFull_header term hdr tail h4, hz, hm]

theorem streamLoop_truncated (term : IOError) (k : Nat) (hdr part : List Byte)
    (tr : List Effect) (h4 : hdr.length = 4) (hz : 0 < Uint32 hdr)
    (hm : Uint32 hdr ≤ maxlen) (hp : part.length < Uint32 hdr) :
    ∃ e, streamLoop term (k + 1) { r := hdr ++ part, trace := tr }
      = some { r := [], trace := tr ++ Effect.alloc (Uint32 hdr) :: payloadErrLogs e } := by
  obtain ⟨e, he, hr⟩ := ReadFull_short term part (Uint32 hdr) hp
  refine ⟨e, ?_⟩
  rw [streamLoop]
  simp only [ReadFull_header term hdr part h4]
  rw [if_neg (by simp), if_neg (by omega), if_neg (by omega)]
  by_cases hE : e = IOError.EOF <;> simp [he, hr, hE, payloadErrLogs]

theorem streamLoop_extends (term : IOError) :
    ∀ (fuel : Nat) (s s' : StreamState), streamLoop term fuel s = some s' →
      ∃ X, s'.trace = s.trace ++ X := by
  intro fuel
  induction fuel with
  | zero => intro s s' h; simp [streamLoop] at h
  | succ fuel ih =>
    intro s s' h
    rcases streamLoop_step term fuel s with ⟨rest, tl, he, _, _⟩ | ⟨q, rest, _, _, _, he⟩
    · rw [he] at h
      cases h
      exact ⟨tl, rfl⟩
    · rw [he] at h
      obtain ⟨X, hX⟩ := ih _ _ h
      exact ⟨frameEffects [q] ++ X, by simp [hX, List.append_assoc]⟩

/-- A header with a length in `(0, maxlen]` passes both checks: the next action
is the allocation of the payload buffer. -/
theorem streamLoop_accepts (term : IOError) (k : Nat) (hdr tail : List Byte)
    (tr : List Effect) (h4 : hdr.length = 4) (hz : Uint32 hdr ≠ 0)
    (hm : Uint32 hdr ≤ maxlen) (s' : StreamState)
    (h : streamLoop term (k + 1) { r := hdr ++ tail, trace := tr } = some s') :
    ∃ X, s'.trace = tr ++ Effect.alloc (Uint32 hdr) :: X := by
  rw [streamLoop] at h
  simp only [ReadFull_header term hdr tail h4] at h
  rw [if_neg (by simp), if_neg hz, if_neg (by omega)] at h
  split at h
  · split at h <;> (cases h; exact ⟨_, by rw [List.append_assoc]; rfl⟩)
  · split at h
    · cases h; exact ⟨_, by rw [List.append_assoc]; rfl⟩
    · obtain ⟨X, hX⟩ := streamLoop_extends term _ _ _ h
      exact ⟨_, by rw [hX]; simp only [List.append_assoc]; rfl⟩

theorem Stream_eval_two_frames : Stream ⟨encodeFrames [[1, 2, 3], [4]], IOError.EOF⟩ =
    some ⟨[], [Effect.alloc 3, Effect.inc, Effect.send [1, 2, 3],
      Effect.alloc 1, Effect.inc, Effect.send [4], Effect.close]⟩ := by decide

theorem Stream_eval_zero : Stream ⟨[0, 0, 0, 0, 9], IOError.EOF⟩ =
    some ⟨[9], [Effect.log (LogMsg.text "len == 0?!"), Effect.close]⟩ := by decide

theorem Stream_eval_oversize : Stream ⟨[8, 0, 0, 1, 9], IOError.EOF⟩ =
    some ⟨[9], [Effect.log (LogMsg.text "PDU too long"), Effect.close]⟩ := by decide

theorem Stream_eval_maxlen : Stream ⟨[8, 0, 0, 0, 9], IOError.EOF⟩ =
    some ⟨[], [Effect.alloc 134217728, Effect.log (LogMsg.err IOError.ErrUnexpectedEOF),
      Effect.log (LogMsg.err IOError.ErrUnexpectedEOF), Effect.close]⟩ := by decide

/-! ## The framing reader: claims -/

/-- C1 (framing round-trip): on the concatenation of the frames of payloads
`ps`, each of a length in `(0, 128 MiB]`, `Stream` returns and the payloads it
sends on the channel are exactly `ps`, in order and unchanged; the whole
stream is consumed. -/
theorem Stream_roundtrip (ps : List (List Byte)) (term : IOError) (hv : ValidPayloads ps) :
    ∃ s, Stream { data := encodeFrames ps, term := term } = some s
      ∧ enqueued s.trace = ps ∧ s.r = []
      ∧ s.trace = frameEffects ps ++ headerErrLogs term ++ [Effect.close] := by
  obtain ⟨k, hk⟩ := Stream_frames term ps [] hv
  rw [List.append_nil] at hk
  rw [hk, streamLoop_end]
  refine ⟨_, rfl, ?_, rfl, by simp [closeConn]⟩
  have hq : enqueued (headerErrLogs term) = [] := by
    unfold headerErrLogs; split <;> rfl
  simp [closeConn, enqueued_append, enqueued_frameEffects, hq, enqueued]

theorem Stream_roundtrip_witness :
    ValidPayloads [[1, 2, 3], [4]]
    ∧ ∃ s, Stream { data := encodeFrames [[1, 2, 3], [4]], term := IOError.EOF } = some s
      ∧ enqueued s.trace = [[1, 2, 3], [4]] ∧ s.r = []
      ∧ s.trace = frameEffects [[1, 2, 3], [4]] ++ headerErrLogs IOError.EOF
          ++ [Effect.close] :=
  ⟨by unfold ValidPayloads; decide,
   Stream_roundtrip [[1, 2, 3], [4]] IOError.EOF (by unfold ValidPayloads; decide)⟩

/-- C2 (zero-length rejection): after `k` well-formed frames, a header
`00 00 00 00` followed by any tail makes `Stream` return with the connection
closed, having sent exactly the `k` preceding payloads; the tail is left
unread. -/
theorem Stream_zero_length (ps : List (List Byte)) (tail : List Byte) (term : IOError)
    (hv : ValidPayloads ps) :
    ∃ s, Stream { data := encodeFrames ps ++ ([0, 0, 0, 0] ++ tail), term := term } = some s
      ∧ enqueued s.trace = ps ∧ s.r = tail
      ∧ s.trace = frameEffects ps
          ++ [Effect.log (LogMsg.text "len == 0?!"), Effect.close] := by
  obtain ⟨k, hk⟩ := Stream_frames term ps ([0, 0, 0, 0] ++ tail) hv
  rw [hk, streamLoop_zero term k [0, 0, 0, 0] tail _ rfl rfl]
  refine ⟨_, rfl, ?_, rfl, by simp [closeConn]⟩
  simp [closeConn, enqueued_append, enqueued_frameEffects, enqueued]

theorem Stream_zero_length_witness :
    ValidPayloads [[7]]
    ∧ ∃ s, Stream { data := encodeFrames [[7]] ++ ([0, 0, 0, 0] ++ [0, 0, 0, 1, 9]),
                    term := IOError.EOF } = some s
      ∧ enqueued s.trace = [[7]] ∧ s.r = [0, 0, 0, 1, 9]
      ∧ s.trace = frameEffects [[7]]
          ++ [Effect.log (LogMsg.text "len == 0?!"), Effect.close] :=
  ⟨by unfold ValidPayloads; decide,
   Stream_zero_length [[7]] [0, 0, 0, 1, 9] IOError.EOF (by unfold ValidPayloads; decide)⟩

/-- C3 (oversize rejection): `maxlen` is 134217728; an iteration of the loop
that reads a header ends with the "PDU too long" rejection, leaving the bytes
after the header unread, exactly when the declared length exceeds `maxlen`;
after `k` well-formed frames such a header makes `Stream` return having sent
only the `k` preceding payloads and allocated only their buffers; and a header
declaring exactly `maxlen` proceeds to the allocation of the payload buffer. -/
theorem Stream_oversize :
    maxlen = 134217728
    ∧ (∀ (term : IOError) (fuel : Nat) (hdr tail : List Byte) (tr : List Effect),
        hdr.length = 4 →
        (streamLoop term (fuel + 1) { r := hdr ++ tail, trace := tr }
            = some { r := tail, trace := tr ++ [Effect.log (LogMsg.text "PDU too long")] }
          ↔ Uint32 hdr > maxlen))
    ∧ (∀ (ps : List (List Byte)) (hdr tail : List Byte) (term : IOError),
        ValidPayloads ps → hdr.length = 4 → Uint32 hdr > maxlen →
        ∃ s, Stream { data := encodeFrames ps ++ (hdr ++ tail), term := term } = some s
          ∧ s.trace = frameEffects ps
              ++ [Effect.log (LogMsg.text "PDU too long"), Effect.close]
          ∧ enqueued s.trace = ps ∧ allocs s.trace = ps.map List.length ∧ s.r = tail)
    ∧ (∀ (tail : List Byte) (term : IOError),
        ∃ s X, Stream { data := be32 maxlen ++ tail, term := term } = some s
          ∧ s.trace = Effect.alloc maxlen :: X) := by
  refine ⟨by decide, ?_, ?_, ?_⟩
  · intro term fuel hdr tail tr h4
    constructor
    · intro h
      by_contra hm
      by_cases hz : Uint32 hdr = 0
      · rw [streamLoop_zero term fuel hdr tail tr h4 hz] at h
        simp at h
      · obtain ⟨X, hX⟩ := streamLoop_accepts term fuel hdr tail tr h4 hz (by omega) _ h
        simp at hX
    · exact streamLoop_oversize term fuel hdr tail tr h4
  · intro ps hdr tail term hv h4 hm
    obtain ⟨k, hk⟩ := Stream_frames term ps (hdr ++ tail) hv
    rw [hk, streamLoop_oversize term k hdr tail _ h4 hm]
    refine ⟨_, rfl, by simp [closeConn], ?_, ?_, rfl⟩
    · simp [closeConn, enqueued_append, enqueued_frameEffects, enqueued]
    · simp [closeConn, allocs_append, allocs_frameEffects, allocs]
  · intro tail term
    obtain ⟨qs, tl, rest, post, hl, _, _, _⟩ :=
      streamLoop_spec term ((be32 maxlen ++ tail).length + 1)
        { r := be32 maxlen ++ tail, trace := [] } (Nat.lt_succ_self _)
    have hu : Uint32 (be32 maxlen) = maxlen := Uint32_be32 _ maxlen_lt
    obtain ⟨X, hX⟩ := streamLoop_accepts term _ (be32 maxlen) tail [] rfl
      (by rw [hu]; decide) (by rw [hu]) _ hl
    rw [hu] at hX
    refine ⟨closeConn { r := rest, trace := [] ++ frameEffects qs ++ tl },
      X ++ [Effect.close], ?_, ?_⟩
    · rw [Stream_eq_map]
      exact congrArg (Option.map closeConn) hl
    · simp only at hX
      simp only [closeConn, hX]
      simp

theorem Stream_oversize_witness :
    (ValidPayloads [[7]] ∧ ([8, 0, 0, 1] : List Byte).length = 4
      ∧ Uint32 [8, 0, 0, 1] > maxlen)
    ∧ ∃ s, Stream { data := encodeFrames [[7]] ++ ([8, 0, 0, 1] ++ [5, 6]),
                    term := IOError.EOF } = some s
      ∧ s.trace = frameEffects [[7]]
          ++ [Effect.log (LogMsg.text "PDU too long"), Effect.close]
      ∧ enqueued s.trace = [[7]] ∧ allocs s.trace = [[7]].map List.length ∧ s.r = [5, 6] :=
  ⟨⟨by unfold ValidPayloads; decide, by decide, by decide⟩,
   Stream_oversize.2.2.1 [[7]] [8, 0, 0, 1] [5, 6] IOError.EOF
     (by unfold ValidPayloads; decide) (by decide) (by decide)⟩

/-- C4 (truncation): after `k` well-formed frames, a complete header declaring
a length `l` in `(0, maxlen]` followed by fewer than `l` bytes makes `Stream`
return having sent exactly the `k` preceding payloads and incremented the
counter exactly `k` times; the buffer is allocated, the read error is logged,
and nothing is sent for the partial payload. -/
theorem Stream_truncated (ps : List (List Byte)) (l : Nat) (part : List Byte)
    (term : IOError) (hv : ValidPayloads ps) (h0 : 0 < l) (h1 : l ≤ maxlen)
    (hp : part.length < l) :
    ∃ s e, Stream { data := encodeFrames ps ++ (be32 l ++ part), term := term } = some s
      ∧ s.trace = frameEffects ps ++ Effect.alloc l :: payloadErrLogs e ++ [Effect.close]
      ∧ enqueued s.trace = ps ∧ incCount s.trace = ps.length := by
  have hu : Uint32 (be32 l) = l := Uint32_be32 _ (lt_of_le_of_lt h1 maxlen_lt)
  obtain ⟨k, hk⟩ := Stream_frames term ps (be32 l ++ part) hv
  obtain ⟨e, he⟩ := streamLoop_truncated term k (be32 l) part (frameEffects ps) rfl
    (by rw [hu]; exact h0) (by rw [hu]; exact h1) (by rw [hu]; exact hp)
  rw [hu] at he
  rw [hk, he]
  have hq : enqueued (payloadErrLogs e) = [] := by
    unfold payloadErrLogs; split <;> rfl
  have hi : incCount (payloadErrLogs e) = 0 := by
    unfold payloadErrLogs; split <;> rfl
  refine ⟨_, e, rfl, by simp [closeConn], ?_, ?_⟩
  · simp [closeConn, enqueued_append, enqueued_frameEffects, enqueued, hq]
  · simp [closeConn, incCount_append, incCount_frameEffects, incCount, hi]

theorem Stream_truncated_witness :
    (ValidPayloads [[7]] ∧ 0 < 3 ∧ 3 ≤ maxlen ∧ ([5, 6] : List Byte).length < 3)
    ∧ ∃ s e, Stream { data := encodeFrames [[7]] ++ (be32 3 ++ [5, 6]),
                      term := IOError.EOF } = some s
      ∧ s.trace = frameEffects [[7]] ++ Effect.alloc 3 :: payloadErrLogs e ++ [Effect.close]
      ∧ enqueued s.trace = [[7]] ∧ incCount s.trace = [[7]].length :=
  ⟨⟨by unfold ValidPayloads; decide, by decide, by decide, by decide⟩,
   Stream_truncated [[7]] 3 [5, 6] IOError.EOF (by unfold ValidPayloads; decide)
     (by decide) (by decide) (by decide)⟩

theorem quiet_of_getElem? (tl : List Effect) (hq : tl.all Effect.quiet = true) (i : Nat)
    (e : Effect) (he : tl[i]? = some e) : e.quiet = true :=
  List.all_eq_true.mp hq e (List.getElem?_mem he)

/-- In a trace made of received frames followed by quiet effects, the
increments are exactly the positions immediately before a send. -/
theorem trace_adjacent (tl : List Effect) (hq : tl.all Effect.quiet = true) :
    ∀ qs : List (List Byte),
      (∀ b, (frameEffects qs ++ tl)[0]? ≠ some (Effect.send b))
      ∧ ∀ i, (frameEffects qs ++ tl)[i]? = some Effect.inc
          ↔ ∃ b, (frameEffects qs ++ tl)[i + 1]? = some (Effect.send b) := by
  intro qs
  induction qs with
  | nil =>
    simp only [frameEffects, List.nil_append]
    refine ⟨fun b h => ?_, fun i => ⟨fun h => ?_, fun h => ?_⟩⟩
    · simpa [Effect.quiet] using quiet_of_getElem? tl hq 0 _ h
    · simpa [Effect.quiet] using quiet_of_getElem? tl hq i _ h
    · obtain ⟨b, h⟩ := h
      simpa [Effect.quiet] using quiet_of_getElem? tl hq (i + 1) _ h
  | cons q qs ih =>
    obtain ⟨ih0, ih1⟩ := ih
    simp only [frameEffects, List.cons_append]
    refine ⟨fun b h => by simp at h, fun i => ?_⟩
    match i with
    | 0 => simp
    | 1 => simp
    | 2 =>
      simp only [List.getElem?_cons_succ, List.getElem?_cons_zero]
      constructor
      · intro h; simp at h
      · rintro ⟨b, h⟩; exact absurd h (ih0 b)
    | i + 3 =>
      simp only [List.getElem?_cons_succ]
      exact ih1 i

/-- C6 (every frame handed to the queue is a valid RawFrame): on any byte
stream `Stream` returns, and each payload it sends has a length in
`(0, maxlen]`, equal to the value of the 4-byte big-endian header that stands
immediately before it in the stream, right after the frames of the payloads
sent earlier. -/
theorem Stream_enqueues_valid (conn : Conn) :
    ∃ s, Stream conn = some s
      ∧ ∀ pre q suf, enqueued s.trace = pre ++ q :: suf →
          0 < q.length ∧ q.length ≤ maxlen
          ∧ ∃ hdr post, hdr.length = 4 ∧ Uint32 hdr = q.length
              ∧ conn.data = encodeFrames pre ++ hdr ++ q ++ post := by
  obtain ⟨qs, tl, rest, post, he, hq, hv, hp⟩ := Stream_spec conn
  refine ⟨_, he, ?_⟩
  intro pre q suf hs
  have hqs : qs = pre ++ q :: suf := by
    rw [← hs]
    simp [enqueued_append, enqueued_frameEffects, enqueued_quiet tl hq, enqueued]
  have hq' := hv q (by rw [hqs]; simp)
  refine ⟨hq'.1, hq'.2, be32 q.length, encodeFrames suf ++ post, rfl,
    Uint32_be32 _ (lt_of_le_of_lt hq'.2 maxlen_lt), ?_⟩
  rw [hp, hqs, encodeFrames_append]
  simp [encodeFrames, encodeFrame, List.append_assoc]

theorem Stream_enqueues_valid_witness :
    0 < ([7, 8] : List Byte).length ∧ ([7, 8] : List Byte).length ≤ maxlen
      ∧ ∃ hdr post, hdr.length = 4 ∧ Uint32 hdr = ([7, 8] : List Byte).length
          ∧ ([0, 0, 0, 1, 5, 0, 0, 0, 2, 7, 8, 0, 0, 0, 0, 3] : List Byte)
              = encodeFrames [[5]] ++ hdr ++ [7, 8] ++ post := by
  obtain ⟨s, hs, h⟩ := Stream_enqueues_valid
    { data := [0, 0, 0, 1, 5, 0, 0, 0, 2, 7, 8, 0, 0, 0, 0, 3], term := IOError.EOF }
  have hc : Stream { data := [0, 0, 0, 1, 5, 0, 0, 0, 2, 7, 8, 0, 0, 0, 0, 3],
                     term := IOError.EOF }
      = some { r := [3], trace := frameEffects [[5], [7, 8]]
                ++ [Effect.log (LogMsg.text "len == 0?!"), Effect.close] } := by decide
  have hs' := Option.some.inj (hs.symm.trans hc)
  exact h [[5]] [7, 8] [] (by rw [hs']; decide)

/-- C7 (received counter counts completed frames exactly): on any byte stream
`Stream` returns with as many counter increments as channel sends; an
increment occurs exactly at the positions of the trace immediately before a
send; and the trace is a run of received frames followed by the actions of
the terminating iteration, none of which is an increment or a send, and the
close. -/
theorem Stream_received_count (conn : Conn) :
    ∃ s, Stream conn = some s
      ∧ incCount s.trace = (enqueued s.trace).length
      ∧ (∀ i, s.trace[i]? = some Effect.inc ↔ ∃ b, s.trace[i + 1]? = some (Effect.send b))
      ∧ ∃ qs tl, s.trace = frameEffects qs ++ tl ++ [Effect.close]
          ∧ tl.all Effect.quiet = true := by
  obtain ⟨qs, tl, rest, post, he, hq, hv, hp⟩ := Stream_spec conn
  have hq' : (tl ++ [Effect.close]).all Effect.quiet = true := by
    simp only [List.all_append, hq, Bool.true_and]
    rfl
  refine ⟨_, he, ?_, ?_, qs, tl, rfl, hq⟩
  · simp only [List.append_assoc]
    rw [incCount_append, enqueued_append, incCount_frameEffects, enqueued_frameEffects,
      incCount_quiet _ hq', enqueued_quiet _ hq']
    simp
  · simp only [List.append_assoc]
    exact (trace_adjacent _ hq' qs).2

/-- C10 (prefix soundness): on any byte stream `Stream` returns, and the
frames of the payloads it sent, concatenated in order, form a prefix of the
stream. -/
theorem Stream_sound (conn : Conn) :
    ∃ s, Stream conn = some s ∧ encodeFrames (enqueued s.trace) <+: conn.data := by
  obtain ⟨qs, tl, rest, post, he, hq, hv, hp⟩ := Stream_spec conn
  refine ⟨_, he, post, ?_⟩
  have hqs : enqueued (frameEffects qs ++ tl ++ [Effect.close]) = qs := by
    simp [enqueued_append, enqueued_frameEffects, enqueued_quiet tl hq, enqueued]
  simp only [hqs, hp]

/-! ## The transfer loop: claims -/

theorem published_append (a b : List XferEffect) :
    published (a ++ b) = published a ++ published b := by
  induction a with
  | nil => rfl
  | cons e a ih => cases e <;> simp [published, ih]

theorem published_XferBody (env : Env) (ts : Int) (buf : List Byte) :
    published (XferBody env ts buf)
      = ((decoded env buf).map (fun ev => (ev, props ev))).toList := by
  unfold XferBody decoded
  cases env.Unmarshal buf <;> rfl

theorem published_Xfer (env : Env) (now : Nat → Int) :
    ∀ (payloads : List (List Byte)) (k : Nat) (tr : List XferEffect),
      published (Xfer env now payloads k tr)
        = published tr ++ (payloads.filterMap (decoded env)).map (fun ev => (ev, props ev)) := by
  intro payloads
  induction payloads with
  | nil => intro k tr; simp [Xfer]
  | cons buf rest ih =>
    intro k tr
    rw [Xfer, ih, published_append, published_XferBody, List.filterMap_cons]
    cases decoded env buf <;> simp

/-- C5 (decode failures are frame-scoped, order is preserved): for any decoder
and any sequence of dequeued payloads, the events `Xfer` hands to `Output`
are, in order, the successful decodes of the payloads, each with its
`device`/`network` properties; one iteration calls `Output` once on a payload
that decodes and not at all on one that does not; so `[valid, malformed,
valid]` publishes the first and third events in that order, and three valid
frames publish their three events in order. -/
theorem Xfer_publishes_decodes (env : Env) (now : Nat → Int) :
    (∀ payloads : List (List Byte),
        published (Xfer env now payloads 0 [])
            = (payloads.filterMap (decoded env)).map (fun ev => (ev, props ev))
          ∧ (published (Xfer env now payloads 0 [])).map Prod.fst
            = payloads.filterMap (decoded env))
    ∧ (∀ (ts : Int) (buf : List Byte) (ev : Event), env.Unmarshal buf = Except.ok ev →
        published (XferBody env ts buf) = [(ev, props ev)])
    ∧ (∀ (ts : Int) (buf : List Byte) (e : String), env.Unmarshal buf = Except.error e →
        published (XferBody env ts buf) = [])
    ∧ (∀ (a b c : List Byte) (e1 e3 : Event) (err : String),
        env.Unmarshal a = Except.ok e1 → env.Unmarshal b = Except.error err →
        env.Unmarshal c = Except.ok e3 →
        published (Xfer env now [a, b, c] 0 []) = [(e1, props e1), (e3, props e3)])
    ∧ (∀ (f1 f2 f3 : List Byte) (e1 e2 e3 : Event),
        env.Unmarshal f1 = Except.ok e1 → env.Unmarshal f2 = Except.ok e2 →
        env.Unmarshal f3 = Except.ok e3 →
        published (Xfer env now [f1, f2, f3] 0 [])
          = [(e1, props e1), (e2, props e2), (e3, props e3)]) := by
  refine ⟨fun payloads => ?_, ?_, ?_, ?_, ?_⟩
  · have h := published_Xfer env now payloads 0 []
    simp only [published, List.nil_append] at h
    refine ⟨h, ?_⟩
    rw [h, List.map_map]
    simp [Function.comp_def]
  · intro ts buf ev h
    simp [XferBody, h, published]
  · intro ts buf e h
    simp [XferBody, h, published]
  · intro a b c e1 e3 err ha hb hc
    rw [published_Xfer]
    simp [published, decoded, ha, hb, hc]
  · intro f1 f2 f3 e1 e2 e3 h1 h2 h3
    rw [published_Xfer]
    simp [published, decoded, h1, h2, h3]

theorem Xfer_publishes_decodes_witness :
    published (Xfer sampleEnv (fun k => k) [[1], [], [2, 3]] 0 [])
      = [({ Device := "dev", Network := "net", Time := none, body := [1] },
          [("device", "dev"), ("network", "net")]),
         ({ Device := "dev", Network := "net", Time := none, body := [2, 3] },
          [("device", "dev"), ("network", "net")])] :=
  (Xfer_publishes_decodes sampleEnv (fun k => k)).2.2.2.1 [1] [] [2, 3]
    { Device := "dev", Network := "net", Time := none, body := [1] }
    { Device := "dev", Network := "net", Time := none, body := [2, 3] }
    "unexpected EOF" rfl rfl rfl

/-! ## Lifecycle: claims -/

theorem effect_running (i j : Input) (e : Effect) (h : i.effect e = some j) :
    j.running = i.running := by
  cases e <;> simp only [Input.effect] at h
  case send b =>
    split at h
    · cases h; rfl
    · cases h
  all_goals (cases h; rfl)

theorem effects_running (tr : List Effect) : ∀ i : Input, (i.effects tr).running = i.running := by
  induction tr with
  | nil => intro i; rfl
  | cons e t ih =>
    intro i
    simp only [Input.effects]
    cases h : i.effect e with
    | none => rfl
    | some j => simp only [ih j, effect_running i j e h]

theorem xferEffects_running (tr : List XferEffect) :
    ∀ i : Input, (tr.foldl Input.xferEffect i).running = i.running := by
  induction tr with
  | nil => intro i; rfl
  | cons e t ih =>
    intro i
    rw [List.foldl_cons, ih]
    cases e <;> rfl

theorem exec_running (env : Env) (i : Input) (op : Op) (h : op ≠ Op.Stop) :
    (i.exec env op).running = i.running := by
  cases op with
  | Stop => exact absurd rfl h
  | Stream conn =>
    simp only [Input.exec, Input.Stream]
    cases Stream conn with
    | none => rfl
    | some s => exact effects_running s.trace i
  | streamEffect e =>
    simp only [Input.exec]
    cases he : i.effect e with
    | none => rfl
    | some j => exact effect_running i j e he
  | XferIter ts =>
    simp only [Input.exec, Input.XferIter]
    cases i.ch.buf with
    | nil => rfl
    | cons buf rest => exact xferEffects_running _ _
  | recordLatency ts ev => rfl
  | RunIter accepted =>
    simp only [Input.exec, Input.RunIter]
    split <;> rfl

theorem execAll_stopped (env : Env) (ops : List Op) :
    ∀ i : Input, i.running = false → (i.execAll env ops).running = false := by
  induction ops with
  | nil => intro i h; exact h
  | cons op ops ih =>
    intro i h
    simp only [Input.execAll, List.foldl_cons]
    apply ih
    by_cases hop : op = Op.Stop
    · subst hop; rfl
    · rw [exec_running env i op hop, h]

/-- C8 (lifecycle is one-way): `NewInput` starts with `running = true`; `Stop`
sets `running = false` and leaves every other field as it was; every other
operation (`Stream`, a single action of a handler, an iteration of `Xfer`,
`recordLatency`, an iteration of `Run`) leaves `running` as it was; hence
once `running` is false in a state reached from the initial one, it is false
after any further operations; and `Stop` is idempotent. -/
theorem lifecycle_one_way (env : Env) :
    (∀ ic, (NewInput ic).running = true)
    ∧ (∀ i : Input, i.Stop.running = false ∧ i.Stop.config = i.config ∧ i.Stop.ch = i.ch
        ∧ i.Stop.event_latency = i.event_latency ∧ i.Stop.received = i.received
        ∧ i.Stop.outputs = i.outputs)
    ∧ (∀ (i : Input) (op : Op), op ≠ Op.Stop → (i.exec env op).running = i.running)
    ∧ (∀ (ic : InputConfig) (ops more : List Op),
        ((NewInput ic).execAll env ops).running = false →
        ((NewInput ic).execAll env (ops ++ more)).running = false)
    ∧ (∀ i : Input, i.Stop.Stop = i.Stop) := by
  refine ⟨fun _ => rfl, fun i => ⟨rfl, rfl, rfl, rfl, rfl, rfl⟩, exec_running env, ?_,
    fun _ => rfl⟩
  intro ic ops more h
  have : (NewInput ic).execAll env (ops ++ more)
      = ((NewInput ic).execAll env ops).execAll env more := by
    simp [Input.execAll, List.foldl_append]
  rw [this]
  exact execAll_stopped env more _ h

theorem lifecycle_one_way_witness :
    ((NewInput { Port := 6789 }).execAll sampleEnv
        [Op.Stream { data := [0, 0, 0, 1, 5], term := IOError.EOF }, Op.Stop]).running = false
    ∧ ((NewInput { Port := 6789 }).execAll sampleEnv
        ([Op.Stream { data := [0, 0, 0, 1, 5], term := IOError.EOF }, Op.Stop]
          ++ [Op.XferIter 10, Op.RunIter none,
              Op.Stream { data := [0, 0, 0, 1, 6], term := IOError.EOF }])).running = false :=
  ⟨by decide,
   (lifecycle_one_way sampleEnv).2.2.2.1 { Port := 6789 }
     [Op.Stream { data := [0, 0, 0, 1, 5], term := IOError.EOF }, Op.Stop]
     [Op.XferIter 10, Op.RunIter none,
      Op.Stream { data := [0, 0, 0, 1, 6], term := IOError.EOF }] (by decide)⟩

/-! ## The hand-off queue: claims -/

theorem Sys.effect_inp (s t : Sys) (e : Effect) (h : s.effect e = some t) :
    s.inp.effect e = some t.inp := by
  unfold Sys.effect at h
  cases hi : s.inp.effect e with
  | none => simp [hi] at h
  | some j =>
    simp only [hi, Option.some.injEq] at h
    rw [← h]

theorem Sys.effect_none (s : Sys) (e : Effect) (h : s.effect e = none) :
    s.inp.effect e = none := by
  unfold Sys.effect at h
  cases hi : s.inp.effect e with
  | none => rfl
  | some j => simp [hi] at h

theorem Sys.effects_inp (tr : List Effect) :
    ∀ s : Sys, (s.effects tr).inp = s.inp.effects tr := by
  induction tr with
  | nil => intro s; rfl
  | cons e t ih =>
    intro s
    simp only [Sys.effects, Input.effects]
    cases h : s.effect e with
    | none => simp [Sys.effect_none s e h]
    | some j => simp [Sys.effect_inp s j e h, ih j]

theorem Sys.exec_inp (env : Env) (s : Sys) (op : Op) :
    (s.exec env op).inp = s.inp.exec env op := by
  cases op with
  | Stop => rfl
  | Stream conn =>
    simp only [Sys.exec, Input.exec, Input.Stream]
    cases Stream conn with
    | none => rfl
    | some st => exact Sys.effects_inp st.trace s
  | streamEffect e =>
    simp only [Sys.exec, Input.exec]
    cases h : s.effect e with
    | none => simp [Sys.effect_none s e h]
    | some j => simp [Sys.effect_inp s j e h]
  | XferIter ts => rfl
  | recordLatency ts ev => rfl
  | RunIter accepted => rfl

theorem Sys.execAll_inp (env : Env) (ops : List Op) :
    ∀ s : Sys, (s.execAll env ops).inp = s.inp.execAll env ops := by
  induction ops with
  | nil => intro s; rfl
  | cons op ops ih =>
    intro s
    simp only [Sys.execAll, Input.execAll, List.foldl_cons]
    have := ih (s.exec env op)
    simp only [Sys.execAll, Input.execAll] at this
    rw [this, Sys.exec_inp]

theorem Sys.effect_Inv (s t : Sys) (e : Effect) (hs : s.Inv) (h : s.effect e = some t) :
    t.Inv := by
  obtain ⟨hc, hl, hh⟩ := hs
  unfold Sys.effect at h
  cases e with
  | send b =>
    simp only [Input.effect] at h
    by_cases hr : s.inp.ch.buf.length < s.inp.ch.cap
    · simp only [hr, if_true, Option.some.injEq] at h
      rw [← h]
      refine ⟨hc, ?_, ?_⟩
      · simp only [List.length_append, List.length_singleton]
        omega
      · simp only [hh, List.append_assoc]
    · simp [hr] at h
  | inc =>
    simp only [Input.effect, Option.some.injEq] at h
    rw [← h]
    exact ⟨hc, hl, hh⟩
  | log m =>
    simp only [Input.effect, Option.some.injEq] at h
    rw [← h]
    exact ⟨hc, hl, hh⟩
  | alloc n =>
    simp only [Input.effect, Option.some.injEq] at h
    rw [← h]
    exact ⟨hc, hl, hh⟩
  | close =>
    simp only [Input.effect, Option.some.injEq] at h
    rw [← h]
    exact ⟨hc, hl, hh⟩

theorem Sys.effects_Inv (tr : List Effect) : ∀ s : Sys, s.Inv → (s.effects tr).Inv := by
  induction tr with
  | nil => intro s hs; exact hs
  | cons e t ih =>
    intro s hs
    simp only [Sys.effects]
    cases h : s.effect e with
    | none => exact hs
    | some j => exact ih j (Sys.effect_Inv s j e hs h)

theorem xferEffects_ch (tr : List XferEffect) :
    ∀ i : Input, (tr.foldl Input.xferEffect i).ch = i.ch := by
  induction tr with
  | nil => intro i; rfl
  | cons e t ih =>
    intro i
    rw [List.foldl_cons, ih]
    cases e <;> rfl

theorem Sys.exec_Inv (env : Env) (s : Sys) (op : Op) (hs : s.Inv) : (s.exec env op).Inv := by
  cases op with
  | Stop => exact hs
  | Stream conn =>
    simp only [Sys.exec]
    cases Stream conn with
    | none => exact hs
    | some st => exact Sys.effects_Inv st.trace s hs
  | streamEffect e =>
    simp only [Sys.exec]
    cases h : s.effect e with
    | none => exact hs
    | some j => exact Sys.effect_Inv s j e hs h
  | XferIter ts =>
    obtain ⟨hc, hl, hh⟩ := hs
    simp only [Sys.exec, Sys.Inv, Input.XferIter]
    cases hb : s.inp.ch.buf with
    | nil =>
      simp only [hb]
      rw [hb] at hh
      exact ⟨hc, by simp, hh⟩
    | cons buf rest =>
      simp only [xferEffects_ch]
      rw [hb] at hh hl
      refine ⟨hc, ?_, ?_⟩
      · simp only [List.length_cons] at hl
        omega
      · simp [hh]
  | recordLatency ts ev => exact hs
  | RunIter accepted =>
    simp only [Sys.exec, Sys.Inv, Input.RunIter]
    split <;> exact hs

theorem Sys.execAll_Inv (env : Env) (ops : List Op) :
    ∀ s : Sys, s.Inv → (s.execAll env ops).Inv := by
  induction ops with
  | nil => intro s hs; exact hs
  | cons op ops ih =>
    intro s hs
    simp only [Sys.execAll, List.foldl_cons]
    exact ih _ (Sys.exec_Inv env s op hs)

theorem sends_length (env : Env) (b : List Byte) (n : Nat) :
    ∀ i : Input, i.ch.cap = 1000 → i.ch.buf.length ≤ 1000 →
      ((i.execAll env (List.replicate n (Op.streamEffect (Effect.send b)))).ch.buf.length
        = min (i.ch.buf.length + n) 1000) := by
  induction n with
  | zero => intro i _ hl; simp [Input.execAll, Nat.min_eq_left hl]
  | succ n ih =>
    intro i hc hl
    simp only [List.replicate_succ, Input.execAll, List.foldl_cons]
    by_cases hr : i.ch.buf.length < i.ch.cap
    · have he : i.exec env (Op.streamEffect (Effect.send b))
          = { i with ch := { cap := i.ch.cap, buf := i.ch.buf ++ [b] } } := by
        simp [Input.exec, Input.effect, hr]
      have := ih { i with ch := { cap := i.ch.cap, buf := i.ch.buf ++ [b] } } hc
        (by simp only [List.length_append, List.length_singleton]; omega)
      simp only [Input.execAll] at this
      rw [he, this]
      simp only [List.length_append, List.length_singleton]
      omega
    · have he : i.exec env (Op.streamEffect (Effect.send b)) = i := by
        simp [Input.exec, Input.effect, hr]
      have := ih i hc hl
      simp only [Input.execAll] at this
      rw [he, this]
      omega

/-- C9 (queue bound and backpressure): the channel made by `NewInput` has
capacity 1000; after any interleaving of handler actions, `Xfer` iterations
and the other operations, starting from `NewInput`, the queue holds at most
1000 payloads, and the payloads sent are exactly the payloads `Xfer` has
received followed by the queued ones, so the received sequence is a prefix of
the sent one; a send on a full queue does not complete and leaves the object
as it was, the handler stopping at it, while a send with room appends at the
back; and `n` sends with no receive leave `min n 1000` payloads queued. -/
theorem queue_bounded_fifo (env : Env) (ic : InputConfig) :
    (NewInput ic).ch.cap = 1000
    ∧ (∀ ops : List Op,
        ((Sys.init ic).execAll env ops).inp = (NewInput ic).execAll env ops
        ∧ ((NewInput ic).execAll env ops).ch.cap = 1000
        ∧ ((NewInput ic).execAll env ops).ch.buf.length ≤ 1000
        ∧ ((Sys.init ic).execAll env ops).sent
            = ((Sys.init ic).execAll env ops).recvd ++ ((NewInput ic).execAll env ops).ch.buf
        ∧ ((Sys.init ic).execAll env ops).recvd <+: ((Sys.init ic).execAll env ops).sent)
    ∧ (∀ (i : Input) (b : List Byte) (rest : List Effect), i.ch.cap ≤ i.ch.buf.length →
        i.effect (Effect.send b) = none
        ∧ i.exec env (Op.streamEffect (Effect.send b)) = i
        ∧ i.effects (Effect.send b :: rest) = i)
    ∧ (∀ (i : Input) (b : List Byte), i.ch.buf.length < i.ch.cap →
        i.effect (Effect.send b)
          = some { i with ch := { cap := i.ch.cap, buf := i.ch.buf ++ [b] } })
    ∧ (∀ (b : List Byte) (n : Nat),
        ((NewInput ic).execAll env
          (List.replicate n (Op.streamEffect (Effect.send b)))).ch.buf.length = min n 1000) := by
  refine ⟨rfl, ?_, ?_, ?_, ?_⟩
  · intro ops
    have hinv : ((Sys.init ic).execAll env ops).Inv :=
      Sys.execAll_Inv env ops (Sys.init ic) ⟨rfl, by simp [Sys.init, NewInput], rfl⟩
    have hp : ((Sys.init ic).execAll env ops).inp = (NewInput ic).execAll env ops :=
      Sys.execAll_inp env ops (Sys.init ic)
    obtain ⟨hc, hl, hh⟩ := hinv
    rw [hp] at hc hl hh
    exact ⟨hp, hc, hl, hh, ⟨_, hh.symm⟩⟩
  · intro i b rest hfull
    have hr : ¬ i.ch.buf.length < i.ch.cap := by omega
    have he : i.effect (Effect.send b) = none := by simp [Input.effect, hr]
    exact ⟨he, by simp [Input.exec, he], by simp [Input.effects, he]⟩
  · intro i b hr
    simp [Input.effect, hr]
  · intro b n
    have := sends_length env b n (NewInput ic) rfl (by simp [NewInput])
    simpa [NewInput] using this

theorem queue_bounded_fifo_witness :
    (1000 ≤ (List.replicate 1000 ([7] : List Byte)).length)
    ∧ ({ config := { Port := 6789 }, running := true,
         ch := { cap := 1000, buf := List.replicate 1000 [7] },
         event_latency := [], received := 1000, outputs := [] } : Input).effect
          (Effect.send [9]) = none :=
  ⟨Nat.le_of_eq (List.length_replicate 1000 [7]).symm,
   ((queue_bounded_fifo sampleEnv { Port := 6789 }).2.2.1
      { config := { Port := 6789 }, running := true,
        ch := { cap := 1000, buf := List.replicate 1000 [7] },
        event_latency := [], received := 1000, outputs := [] }
      [9] [] (Nat.le_of_eq (List.length_replicate 1000 [7]).symm)).1⟩

theorem queue_history_eval :
    (((Sys.init { Port := 6789 }).execAll sampleEnv
        [Op.streamEffect Effect.inc, Op.streamEffect (Effect.send [5]),
         Op.Stream { data := [0, 0, 0, 1, 6, 0, 0, 0, 1, 7], term := IOError.EOF },
         Op.XferIter 10, Op.XferIter 11]).sent = [[5], [6], [7]])
    ∧ (((Sys.init { Port := 6789 }).execAll sampleEnv
        [Op.streamEffect Effect.inc, Op.streamEffect (Effect.send [5]),
         Op.Stream { data := [0, 0, 0, 1, 6, 0, 0, 0, 1, 7], term := IOError.EOF },
         Op.XferIter 10, Op.XferIter 11]).recvd = [[5], [6]])
    ∧ (((Sys.init { Port := 6789 }).execAll sampleEnv
        [Op.streamEffect Effect.inc, Op.streamEffect (Effect.send [5]),
         Op.Stream { data := [0, 0, 0, 1, 6, 0, 0, 0, 1, 7], term := IOError.EOF },
         Op.XferIter 10, Op.XferIter 11]).inp.ch.buf = [[7]]) := by
  decide

end EvsInput
